import Mathlib

/-!
# AbstractViewModel (view_models_framework/abstract_view_model.cpp)

A shallow embedding of `AbstractViewModel` and of the objects it drives.

* The Qt object tree is a heap of field objects addressed by pointers, plus the
  ordered list of the view-model's direct `FieldBackendBase` children.
* C++ statements are programs over a configuration (the objects and a log of the
  calls made), returning either normally or by a raised failure; the state reached
  before a failure is kept, as in C++.
* The virtual methods of the fields and the `do_updateView` hook of the derived
  class are parameters.
-/

namespace ViewModelsFramework

/-! ## Data model -/

/-- Modelled from the spec: the enumeration `FieldMessage::MessageSeverity` (declared
outside the source file), by its numeric value: severities are ordered, and a larger
number is a more severe message. -/
abbrev MessageSeverity := Nat

/-- Modelled from the spec: one status message of a field (class `FieldMessage`,
declared outside the source file), a severity and a text. -/
structure FieldMessage where
  severity : MessageSeverity
  message : String
deriving DecidableEq, Repr

/-- Values held by a field. -/
abbrev Value := Int

/-- Modelled from the spec: the state of one field object (class `FieldBackendBase`,
declared outside the source file): the `QObject` signal-blocking flag, the identifier,
the status messages, and the current value with its original snapshot. -/
structure FieldBackendBase where
  fieldId : Int
  signalsBlocked : Bool
  statusMessages : List FieldMessage
  currentValue : Value
  originalValue : Value
deriving DecidableEq, Repr

/-- The methods of `FieldBackendBase` that the view-model calls, whose bodies are
outside the source file. Each acts on the state of the field it is called on. -/
structure FieldOps where
  beginFieldUpdate : FieldBackendBase → FieldBackendBase
  endFieldUpdate : FieldBackendBase → FieldBackendBase
  restoreOriginalValue : FieldBackendBase → FieldBackendBase
  isChangedFromOriginalValue : FieldBackendBase → Bool

/-- Pointers to field objects. -/
abbrev Ptr := Nat

/-- The view-model object with its object tree: the two private flags, the direct
children of type `FieldBackendBase` in their order, and the field objects. -/
structure World where
  m_modified : Bool
  m_isUpdatingView : Bool
  children : List Ptr
  heap : Ptr → FieldBackendBase

/-- Signal emissions of the view-model and the calls its cycles make, in the order
they happen. -/
inductive Event where
  | modifiedChanged
  | blockSignals (field : Ptr) (block : Bool)
  | beginFieldUpdate (field : Ptr)
  | restoreOriginalValue (field : Ptr)
  | endFieldUpdate (field : Ptr)
  | do_updateView
  | qDebug
deriving DecidableEq, Repr

/-- A configuration: the objects and the log of calls made so far. -/
structure Cfg where
  world : World
  log : List Event

/-- How a call ends: it returns a value, or a failure is raised out of it. -/
inductive Res (α : Type) where
  | ok (a : α)
  | thrown
deriving DecidableEq, Repr

/-- A C++ statement or call: it runs from a configuration and ends in one. -/
def Prog (α : Type) : Type := Cfg → Res α × Cfg

/-- Returning a value changes nothing. -/
def Prog.pure {α : Type} (a : α) : Prog α := fun c => (Res.ok a, c)

/-- Sequencing: a failure raised by the first part skips the rest. -/
def Prog.bind {α β : Type} (m : Prog α) (f : α → Prog β) : Prog β := fun c =>
  match m c with
  | (Res.ok a, c1) => f a c1
  | (Res.thrown, c1) => (Res.thrown, c1)

instance : Monad Prog where
  pure := Prog.pure
  bind := Prog.bind

/-- The block `try body catch (...) handler`. -/
def tryCatchAll (body : Prog Unit) (handler : Prog Unit) : Prog Unit := fun c =>
  match body c with
  | (Res.ok _, c1) => (Res.ok (), c1)
  | (Res.thrown, c1) => handler c1

/-- The range-based loop `for (x : xs) body`. -/
def forEach (xs : List Ptr) (body : Ptr → Prog Unit) : Prog Unit :=
  match xs with
  | [] => Prog.pure ()
  | x :: rest => Prog.bind (body x) (fun _ => forEach rest body)

/-- The hook of the derived class: it acts on the objects and returns or raises. -/
abbrev Hook := World → Res Unit × World

/-! ## Primitive statements -/

/-- Append an event to the log. -/
def emit (e : Event) : Prog Unit := fun c => (Res.ok (), { c with log := c.log ++ [e] })

/-- Change the object a pointer refers to. -/
def modifyField (p : Ptr) (f : FieldBackendBase → FieldBackendBase) : Prog Unit := fun c =>
  (Res.ok (), { c with world := { c.world with heap := Function.update c.world.heap p (f (c.world.heap p)) } })

/-- Read the reentrancy flag. -/
def read_isUpdatingView : Prog Bool := fun c => (Res.ok c.world.m_isUpdatingView, c)

/-- Assignment to `m_isUpdatingView`. -/
def write_isUpdatingView (b : Bool) : Prog Unit := fun c =>
  (Res.ok (), { c with world := { c.world with m_isUpdatingView := b } })

/-- Read `m_modified`. -/
def read_modified : Prog Bool := fun c => (Res.ok c.world.m_modified, c)

/-- Assignment to `m_modified`. -/
def write_modified (b : Bool) : Prog Unit := fun c =>
  (Res.ok (), { c with world := { c.world with m_modified := b } })

/-- The call `QObject::findChildren<FieldBackendBase*>(QString(), Qt::FindDirectChildrenOnly)`. -/
def findChildren : Prog (List Ptr) := fun c => (Res.ok c.world.children, c)

/-- The call `field->blockSignals(block)`. -/
def blockSignals (field : Ptr) (block : Bool) : Prog Unit := do
  emit (Event.blockSignals field block)
  modifyField field (fun f => { f with signalsBlocked := block })

/-- The call `field->beginFieldUpdate()`. -/
def beginFieldUpdate (ops : FieldOps) (field : Ptr) : Prog Unit := do
  emit (Event.beginFieldUpdate field)
  modifyField field ops.beginFieldUpdate

/-- The call `field->endFieldUpdate()`. -/
def endFieldUpdate (ops : FieldOps) (field : Ptr) : Prog Unit := do
  emit (Event.endFieldUpdate field)
  modifyField field ops.endFieldUpdate

/-- The call `field->restoreOriginalValue()`. -/
def restoreOriginalValue (ops : FieldOps) (field : Ptr) : Prog Unit := do
  emit (Event.restoreOriginalValue field)
  modifyField field ops.restoreOriginalValue

/-- The virtual call `do_updateView()`: the hook runs on the objects. -/
def do_updateView (hook : Hook) : Prog Unit := fun c =>
  let r := hook c.world
  (r.1, { world := r.2, log := c.log ++ [Event.do_updateView] })

/-- The call `qDebug(...)` of the catch block. -/
def qDebug : Prog Unit := emit Event.qDebug

/-! ## The member functions of `AbstractViewModel` -/

/-- The view-model as built by the constructor around a given object tree. -/
def AbstractViewModel (children : List Ptr) (heap : Ptr → FieldBackendBase) : World :=
  { m_modified := false, m_isUpdatingView := false, children := children, heap := heap }

/-- Member `modified()`. -/
def modified (w : World) : Bool := w.m_modified

/-- Member `isUpdatingView()`. -/
def isUpdatingView (w : World) : Bool := w.m_isUpdatingView

/-- Member `setModified(value)`. -/
def setModified (value : Bool) : Prog Unit := do
  let m ← read_modified
  if m != value then
    write_modified value
    emit Event.modifiedChanged
  else
    pure ()

/-- Member `updateView()`. -/
def updateView (ops : FieldOps) (hook : Hook) : Prog Unit := do
  let g ← read_isUpdatingView
  if g then
    pure ()
  else
    write_isUpdatingView true
    let fields ← findChildren
    forEach fields (fun field => do
      blockSignals field true
      beginFieldUpdate ops field)
    tryCatchAll (do_updateView hook) qDebug
    forEach fields (fun field => do
      blockSignals field false
      endFieldUpdate ops field)
    write_isUpdatingView false

/-- The loop of `areFieldsChangedFromOriginalValues()`, which returns from inside
at the first changed field. -/
def areFieldsChangedLoop (ops : FieldOps) (fields : List Ptr) : Prog Bool :=
  match fields with
  | [] => Prog.pure false
  | field :: rest => fun c =>
      if ops.isChangedFromOriginalValue (c.world.heap field) then (Res.ok true, c)
      else areFieldsChangedLoop ops rest c

/-- Member `areFieldsChangedFromOriginalValues()`. -/
def areFieldsChangedFromOriginalValues (ops : FieldOps) : Prog Bool := do
  let fields ← findChildren
  areFieldsChangedLoop ops fields

/-- Member `restoreOriginalFieldValues()`. -/
def restoreOriginalFieldValues (ops : FieldOps) (hook : Hook) : Prog Unit := do
  let g ← read_isUpdatingView
  if g then
    pure ()
  else
    write_isUpdatingView true
    let fields ← findChildren
    forEach fields (fun field => do
      blockSignals field true
      beginFieldUpdate ops field
      restoreOriginalValue ops field)
    tryCatchAll (do_updateView hook) qDebug
    forEach fields (fun field => do
      blockSignals field false
      endFieldUpdate ops field)
    write_isUpdatingView false

/-! ## The message lists of the fields -/

/-- Modelled from the spec: the member addMessage of the message list of a field
(class FieldMessagesList, not in the source): it appends the message (severity, text)
to the ordered collection. -/
def addMessage (severity : MessageSeverity) (message : String) (l : List FieldMessage) :
    List FieldMessage :=
  l ++ [{ severity := severity, message := message }]

/-- Modelled from the spec: the member clearMessages of the message list of a field
(class FieldMessagesList, not in the source): it clears the whole list. -/
def clearMessages (_l : List FieldMessage) : List FieldMessage := []

/-- Modelled from the spec: the member deleteMessagesBySeverity of the message list of
a field (class FieldMessagesList, not in the source): it deletes all messages at or
above the threshold and keeps the others in their order. -/
def deleteMessagesBySeverity (minSeverityToDelete : MessageSeverity) (l : List FieldMessage) :
    List FieldMessage :=
  l.filter (fun m => !decide (minSeverityToDelete ≤ m.severity))

/-- Read the object a pointer refers to. -/
def readField (p : Ptr) : Prog FieldBackendBase := fun c => (Res.ok (c.world.heap p), c)

/-- Apply a member of the message list reached through `field->statusMessages()`. -/
def onStatusMessages (field : Ptr) (f : List FieldMessage → List FieldMessage) : Prog Unit :=
  modifyField field (fun o => { o with statusMessages := f o.statusMessages })

/-- Member `clearFieldsMessages()`. -/
def clearFieldsMessages : Prog Unit := do
  let fields ← findChildren
  forEach fields (fun field => do
    onStatusMessages field clearMessages)

/-- Member `deleteFieldsMessagesBySeverity(minSeverityToDelete)`. -/
def deleteFieldsMessagesBySeverity (minSeverityToDelete : MessageSeverity) : Prog Unit := do
  let fields ← findChildren
  forEach fields (fun field => do
    onStatusMessages field (deleteMessagesBySeverity minSeverityToDelete))

/-- Member `addFieldMessageByFieldId(fieldId, severity, message)`. -/
def addFieldMessageByFieldId (fieldId : Int) (severity : MessageSeverity) (message : String) :
    Prog Unit := do
  let fields ← findChildren
  forEach fields (fun field => do
    let o ← readField field
    if o.fieldId == fieldId then
      onStatusMessages field (addMessage severity message)
    else
      pure ())

/-! ## The effect of one cycle, in closed form -/

/-- What the begin phase of `updateView()` does to one field. -/
def beginField (ops : FieldOps) (f : FieldBackendBase) : FieldBackendBase :=
  ops.beginFieldUpdate { f with signalsBlocked := true }

/-- What the begin phase of `restoreOriginalFieldValues()` does to one field. -/
def restoreField (ops : FieldOps) (f : FieldBackendBase) : FieldBackendBase :=
  ops.restoreOriginalValue (ops.beginFieldUpdate { f with signalsBlocked := true })

/-- What the end phase of either cycle does to one field. -/
def endField (ops : FieldOps) (f : FieldBackendBase) : FieldBackendBase :=
  ops.endFieldUpdate { f with signalsBlocked := false }

/-- Calls of the begin phase of `updateView()` on one field. -/
def beginEvents (x : Ptr) : List Event :=
  [Event.blockSignals x true, Event.beginFieldUpdate x]

/-- Calls of the begin phase of `restoreOriginalFieldValues()` on one field. -/
def restoreEvents (x : Ptr) : List Event :=
  [Event.blockSignals x true, Event.beginFieldUpdate x, Event.restoreOriginalValue x]

/-- Calls of the end phase of either cycle on one field. -/
def endEvents (x : Ptr) : List Event :=
  [Event.blockSignals x false, Event.endFieldUpdate x]

/-- One visit of a pass: the object is changed by `g` and the calls are logged. -/
def visit (g : FieldBackendBase → FieldBackendBase) (evs : Ptr → List Event) (x : Ptr)
    (c : Cfg) : Cfg :=
  { world := { c.world with heap := Function.update c.world.heap x (g (c.world.heap x)) },
    log := c.log ++ evs x }

/-- One pass over a list of pointers, in the order of the list. -/
def sweep (g : FieldBackendBase → FieldBackendBase) (evs : Ptr → List Event) :
    List Ptr → Cfg → Cfg
  | [], c => c
  | x :: rest, c => sweep g evs rest (visit g evs x c)

/-- The configuration in which the hook is called. -/
def atHook (pre : FieldBackendBase → FieldBackendBase) (preEvents : Ptr → List Event)
    (c : Cfg) : Cfg :=
  sweep pre preEvents c.world.children
    { c with world := { c.world with m_isUpdatingView := true } }

/-- The diagnostic of the catch block, present when the hook raised. -/
def diagnostic (r : Res Unit) : List Event :=
  match r with
  | Res.ok _ => []
  | Res.thrown => [Event.qDebug]

/-- The configuration after the try block: the hook has run, and the catch block
has logged a diagnostic when the hook raised. -/
def afterTry (hook : Hook) (c : Cfg) : Cfg :=
  { world := (hook c.world).2,
    log := c.log ++ Event.do_updateView :: diagnostic (hook c.world).1 }

/-- The configuration at the end of a cycle started from `c`, whose begin phase does
`pre` to each field and logs `preEvents`. -/
def cycle (pre : FieldBackendBase → FieldBackendBase) (preEvents : Ptr → List Event)
    (ops : FieldOps) (hook : Hook) (c : Cfg) : Cfg :=
  let c3 := sweep (endField ops) endEvents c.world.children
    (afterTry hook (atHook pre preEvents c))
  { c3 with world := { c3.world with m_isUpdatingView := false } }

/-- What `addFieldMessageByFieldId` does to one field. -/
def addToMatching (fieldId : Int) (severity : MessageSeverity) (message : String)
    (o : FieldBackendBase) : FieldBackendBase :=
  if o.fieldId == fieldId then
    { o with statusMessages := addMessage severity message o.statusMessages }
  else o

/-- What `deleteFieldsMessagesBySeverity` does to one field. -/
def deleteInField (minSeverityToDelete : MessageSeverity) (o : FieldBackendBase) :
    FieldBackendBase :=
  { o with statusMessages := deleteMessagesBySeverity minSeverityToDelete o.statusMessages }

/-- No calls logged. -/
def noEvents (_x : Ptr) : List Event := []

/-- Number of messages held by the owned fields together. -/
def totalMessages (w : World) : Nat :=
  (w.children.map (fun p => (w.heap p).statusMessages.length)).sum

/-- A sequence of calls `setModified(v)`, one for each value of the list. -/
def setModifiedCalls : List Bool → Prog Unit
  | [] => Prog.pure ()
  | v :: rest => Prog.bind (setModified v) (fun _ => setModifiedCalls rest)

/-- Number of value transitions of a sequence of flag values that starts from `b`. -/
def transitions : Bool → List Bool → Nat
  | _, [] => 0
  | b, v :: rest => (if b = v then 0 else 1) + transitions v rest

/-- The empty `AbstractViewModel::do_updateView()` of the base class. -/
def do_updateView_base : Hook := fun w => (Res.ok (), w)

/-- A hook that raises a failure unconditionally. -/
def raisingHook : Hook := fun w => (Res.thrown, w)

/-- Fields whose begin and end hooks do nothing, which restore by copying the
original value and report a change when the two values differ. -/
def plainOps : FieldOps :=
  { beginFieldUpdate := fun f => f
    endFieldUpdate := fun f => f
    restoreOriginalValue := fun f => { f with currentValue := f.originalValue }
    isChangedFromOriginalValue := fun f => f.currentValue != f.originalValue }

/-- Field `F1` with id 1. -/
def F1 : FieldBackendBase :=
  { fieldId := 1, signalsBlocked := false, statusMessages := [], currentValue := 5,
    originalValue := 7 }

/-- Field `F2` with id 2, whose notifications are blocked, holding two messages. -/
def F2 : FieldBackendBase :=
  { fieldId := 2, signalsBlocked := true,
    statusMessages := [{ severity := 1, message := "note" }, { severity := 3, message := "bad" }],
    currentValue := 4, originalValue := 4 }

/-- Objects: `F1` at pointer 1, `F2` everywhere else. -/
def sampleHeap : Ptr → FieldBackendBase := fun p => if p = 1 then F1 else F2

/-- View-model `VM` owning `F1` and `F2`, idle, with an empty log. -/
def VM : Cfg := { world := AbstractViewModel [1, 2] sampleHeap, log := [] }

/-- The same view-model inside a cycle. -/
def busyVM : Cfg := { world := { VM.world with m_isUpdatingView := true }, log := [] }

/-- Fields whose `endFieldUpdate` records in the current value whether their
notifications are blocked at the time it runs: 1 when blocked, 0 when not. -/
def probeOps : FieldOps :=
  { beginFieldUpdate := fun f => f
    endFieldUpdate := fun f => { f with currentValue := if f.signalsBlocked then 1 else 0 }
    restoreOriginalValue := fun f => { f with currentValue := f.originalValue }
    isChangedFromOriginalValue := fun f => f.currentValue != f.originalValue }

/-- Whether, in a log, the call `endFieldUpdate` on a field comes before the call
that unblocks the notifications of that field. -/
def endUpdateBeforeUnblock (log : List Event) (p : Ptr) : Bool :=
  decide (log.indexOf (Event.endFieldUpdate p) < log.indexOf (Event.blockSignals p false))

/-- A hook that writes 99 into the current value of the field at pointer 1. -/
def overwritingHook : Hook := fun w =>
  (Res.ok (), { w with heap := Function.update w.heap 1 { w.heap 1 with currentValue := 99 } })

/-- Fields whose `endFieldUpdate` blocks their own notifications again. -/
def reblockingOps : FieldOps :=
  { beginFieldUpdate := fun f => f
    endFieldUpdate := fun f => { f with signalsBlocked := true }
    restoreOriginalValue := fun f => { f with currentValue := f.originalValue }
    isChangedFromOriginalValue := fun f => f.currentValue != f.originalValue }

theorem bind_apply {α β : Type} (m : Prog α) (f : α → Prog β) (c : Cfg) :
    (m >>= f) c = match m c with
      | (Res.ok a, c1) => f a c1
      | (Res.thrown, c1) => (Res.thrown, c1) := rfl

theorem forEach_sweep (g : FieldBackendBase → FieldBackendBase) (evs : Ptr → List Event)
    (body : Ptr → Prog Unit) (hbody : ∀ x c, body x c = (Res.ok (), visit g evs x c))
    (xs : List Ptr) (c : Cfg) :
    forEach xs body c = (Res.ok (), sweep g evs xs c) := by
  induction xs generalizing c with
  | nil => rfl
  | cons x rest ih =>
    simp only [forEach, Prog.bind, hbody, sweep]
    exact ih _

theorem begin_body (ops : FieldOps) (x : Ptr) (c : Cfg) :
    (do blockSignals x true; beginFieldUpdate ops x : Prog Unit) c
      = (Res.ok (), visit (beginField ops) beginEvents x c) := by
  simp [bind, Prog.bind, blockSignals, beginFieldUpdate, emit, modifyField, visit, beginField,
    beginEvents]

theorem restore_body (ops : FieldOps) (x : Ptr) (c : Cfg) :
    (do blockSignals x true; beginFieldUpdate ops x; restoreOriginalValue ops x : Prog Unit) c
      = (Res.ok (), visit (restoreField ops) restoreEvents x c) := by
  simp [bind, Prog.bind, blockSignals, beginFieldUpdate, restoreOriginalValue, emit, modifyField,
    visit, restoreField, restoreEvents]

theorem end_body (ops : FieldOps) (x : Ptr) (c : Cfg) :
    (do blockSignals x false; endFieldUpdate ops x : Prog Unit) c
      = (Res.ok (), visit (endField ops) endEvents x c) := by
  simp [bind, Prog.bind, blockSignals, endFieldUpdate, emit, modifyField, visit, endField,
    endEvents]

theorem try_hook (hook : Hook) (c : Cfg) :
    tryCatchAll (do_updateView hook) qDebug c = (Res.ok (), afterTry hook c) := by
  unfold tryCatchAll do_updateView afterTry qDebug emit diagnostic
  cases h : (hook c.world).1 <;> simp [h]

theorem updateView_idle (ops : FieldOps) (hook : Hook) (c : Cfg)
    (hidle : c.world.m_isUpdatingView = false) :
    updateView ops hook c = (Res.ok (), cycle (beginField ops) beginEvents ops hook c) := by
  have hb := forEach_sweep (beginField ops) beginEvents _ (begin_body ops)
  have he := forEach_sweep (endField ops) endEvents _ (end_body ops)
  unfold updateView
  simp only [bind_apply, read_isUpdatingView, hidle, Bool.false_eq_true, if_false,
    write_isUpdatingView, findChildren, hb, he, try_hook, cycle, atHook]

theorem restoreOriginalFieldValues_idle (ops : FieldOps) (hook : Hook) (c : Cfg)
    (hidle : c.world.m_isUpdatingView = false) :
    restoreOriginalFieldValues ops hook c
      = (Res.ok (), cycle (restoreField ops) restoreEvents ops hook c) := by
  have hb := forEach_sweep (restoreField ops) restoreEvents _ (restore_body ops)
  have he := forEach_sweep (endField ops) endEvents _ (end_body ops)
  unfold restoreOriginalFieldValues
  simp only [bind_apply, read_isUpdatingView, hidle, Bool.false_eq_true, if_false,
    write_isUpdatingView, findChildren, hb, he, try_hook, cycle, atHook]

theorem sweep_log (g : FieldBackendBase → FieldBackendBase) (evs : Ptr → List Event)
    (xs : List Ptr) (c : Cfg) :
    (sweep g evs xs c).log = c.log ++ xs.flatMap evs := by
  induction xs generalizing c with
  | nil => simp [sweep]
  | cons x rest ih => simp [sweep, ih, visit, List.append_assoc]

theorem sweep_children (g : FieldBackendBase → FieldBackendBase) (evs : Ptr → List Event)
    (xs : List Ptr) (c : Cfg) :
    (sweep g evs xs c).world.children = c.world.children := by
  induction xs generalizing c with
  | nil => rfl
  | cons x rest ih => simp [sweep, ih, visit]

/-- After a pass, each object has been changed once for each time it is listed. -/
theorem sweep_heap (g : FieldBackendBase → FieldBackendBase) (evs : Ptr → List Event)
    (xs : List Ptr) (c : Cfg) (p : Ptr) :
    (sweep g evs xs c).world.heap p = g^[xs.count p] (c.world.heap p) := by
  induction xs generalizing c with
  | nil => rfl
  | cons x rest ih =>
    simp only [sweep, ih, visit]
    by_cases hx : x = p
    · subst hx
      simp [Function.update_same]
    · have hne : p ≠ x := fun h => hx h.symm
      simp [Function.update_noteq hne, List.count_cons, hx]

theorem sweep_heap_not_mem (g : FieldBackendBase → FieldBackendBase) (evs : Ptr → List Event)
    (xs : List Ptr) (c : Cfg) (p : Ptr) (hp : p ∉ xs) :
    (sweep g evs xs c).world.heap p = c.world.heap p := by
  rw [sweep_heap, List.count_eq_zero_of_not_mem hp]
  rfl

theorem sweep_heap_nodup (g : FieldBackendBase → FieldBackendBase) (evs : Ptr → List Event)
    (xs : List Ptr) (c : Cfg) (p : Ptr) (hp : p ∈ xs) (hnd : xs.Nodup) :
    (sweep g evs xs c).world.heap p = g (c.world.heap p) := by
  rw [sweep_heap, List.count_eq_one_of_mem hnd hp]
  rfl

/-- After a pass, a listed object is the result of a last application of `g`. -/
theorem sweep_heap_mem (g : FieldBackendBase → FieldBackendBase) (evs : Ptr → List Event)
    (xs : List Ptr) (c : Cfg) (p : Ptr) (hp : p ∈ xs) :
    ∃ f, (sweep g evs xs c).world.heap p = g f := by
  rw [sweep_heap]
  obtain ⟨n, hn⟩ : ∃ n, xs.count p = n + 1 :=
    Nat.exists_eq_succ_of_ne_zero (Nat.pos_iff_ne_zero.mp (List.count_pos_iff.mpr hp))
  rw [hn, Function.iterate_succ_apply']
  exact ⟨_, rfl⟩

/-- A projection of the objects that `g` keeps is kept by a pass. -/
theorem sweep_heap_keeps {β : Type} (π : FieldBackendBase → β)
    (g : FieldBackendBase → FieldBackendBase) (hg : ∀ f, π (g f) = π f)
    (evs : Ptr → List Event) (xs : List Ptr) (c : Cfg) (p : Ptr) :
    π ((sweep g evs xs c).world.heap p) = π (c.world.heap p) := by
  rw [sweep_heap]
  generalize xs.count p = n
  induction n with
  | zero => rfl
  | succ n ih => rw [Function.iterate_succ_apply', hg, ih]

/-! ## Lemmas on a whole cycle -/

theorem cycle_unblocked (pre : FieldBackendBase → FieldBackendBase)
    (preEvents : Ptr → List Event) (ops : FieldOps) (hook : Hook) (c : Cfg)
    (hEnd : ∀ f, (ops.endFieldUpdate f).signalsBlocked = f.signalsBlocked)
    (p : Ptr) (hp : p ∈ c.world.children) :
    ((cycle pre preEvents ops hook c).world.heap p).signalsBlocked = false := by
  obtain ⟨f, hf⟩ := sweep_heap_mem (endField ops) endEvents c.world.children
    (afterTry hook (atHook pre preEvents c)) p hp
  have h : (cycle pre preEvents ops hook c).world.heap p = endField ops f := hf
  rw [h, endField, hEnd]

theorem cycle_log (pre : FieldBackendBase → FieldBackendBase)
    (preEvents : Ptr → List Event) (ops : FieldOps) (hook : Hook) (c : Cfg) :
    (cycle pre preEvents ops hook c).log
      = c.log ++ (c.world.children.flatMap preEvents
          ++ Event.do_updateView :: diagnostic (hook (atHook pre preEvents c).world).1
          ++ c.world.children.flatMap endEvents) := by
  simp only [cycle, sweep_log, afterTry, atHook, List.append_assoc]

/-! ## Lemmas on the modified flag and on the query -/

theorem setModified_eq (v : Bool) (c : Cfg) :
    setModified v c = (Res.ok (),
      if c.world.m_modified = v then c
      else { world := { c.world with m_modified := v },
             log := c.log ++ [Event.modifiedChanged] }) := by
  unfold setModified
  by_cases h : c.world.m_modified = v
  · simp only [bind_apply, read_modified, h, bne_self_eq_false, Bool.false_eq_true, if_false,
      if_true]
    rfl
  · have hne : (c.world.m_modified != v) = true := by simpa using h
    simp only [bind_apply, read_modified, hne, if_true, write_modified, emit, h, if_false]

theorem setModifiedCalls_eq (vs : List Bool) (c : Cfg) :
    (setModifiedCalls vs c).1 = Res.ok () ∧
    (setModifiedCalls vs c).2.world.m_modified = vs.getLastD c.world.m_modified ∧
    (setModifiedCalls vs c).2.log
      = c.log ++ List.replicate (transitions c.world.m_modified vs) Event.modifiedChanged := by
  induction vs generalizing c with
  | nil => simp [setModifiedCalls, Prog.pure, transitions]
  | cons v rest ih =>
    have hstep : setModifiedCalls (v :: rest) c = setModifiedCalls rest (setModified v c).2 := by
      simp only [setModifiedCalls, Prog.bind, setModified_eq]
    rw [hstep]
    obtain ⟨h1, h2, h3⟩ := ih (setModified v c).2
    refine ⟨h1, ?_, ?_⟩
    · rw [h2, setModified_eq]
      by_cases h : c.world.m_modified = v
      · cases rest <;> simp [h, List.getLastD]
      · cases rest <;> simp [h, List.getLastD]
    · rw [h3, setModified_eq]
      by_cases h : c.world.m_modified = v
      · simp [h, transitions]
      · simp [h, transitions, Nat.add_comm 1, List.replicate_succ]

theorem areFieldsChangedLoop_eq (ops : FieldOps) (fields : List Ptr) (c : Cfg) :
    areFieldsChangedLoop ops fields c
      = (Res.ok (fields.any (fun p => ops.isChangedFromOriginalValue (c.world.heap p))), c) := by
  induction fields with
  | nil => rfl
  | cons x rest ih =>
    unfold areFieldsChangedLoop
    by_cases h : ops.isChangedFromOriginalValue (c.world.heap x) = true
    · simp [h]
    · simp [h, ih]

theorem areFieldsChanged_eq (ops : FieldOps) (c : Cfg) :
    areFieldsChangedFromOriginalValues ops c
      = (Res.ok (c.world.children.any
          (fun p => ops.isChangedFromOriginalValue (c.world.heap p))), c) := by
  unfold areFieldsChangedFromOriginalValues
  simp only [bind_apply, findChildren, areFieldsChangedLoop_eq]

/-! ## Lemmas on the log of a cycle -/

theorem updateView_log (ops : FieldOps) (hook : Hook) (c : Cfg)
    (hidle : c.world.m_isUpdatingView = false) :
    ∃ d, (d = [] ∨ d = [Event.qDebug]) ∧
      (updateView ops hook c).2.log
        = c.log ++ (c.world.children.flatMap beginEvents ++ Event.do_updateView :: d
            ++ c.world.children.flatMap endEvents) := by
  rw [updateView_idle ops hook c hidle]
  refine ⟨diagnostic (hook (atHook (beginField ops) beginEvents c).world).1, ?_,
    cycle_log _ _ ops hook c⟩
  cases (hook (atHook (beginField ops) beginEvents c).world).1 <;> simp [diagnostic]

theorem restoreOriginalFieldValues_log (ops : FieldOps) (hook : Hook) (c : Cfg)
    (hidle : c.world.m_isUpdatingView = false) :
    ∃ d, (d = [] ∨ d = [Event.qDebug]) ∧
      (restoreOriginalFieldValues ops hook c).2.log
        = c.log ++ (c.world.children.flatMap restoreEvents ++ Event.do_updateView :: d
            ++ c.world.children.flatMap endEvents) := by
  rw [restoreOriginalFieldValues_idle ops hook c hidle]
  refine ⟨diagnostic (hook (atHook (restoreField ops) restoreEvents c).world).1, ?_,
    cycle_log _ _ ops hook c⟩
  cases (hook (atHook (restoreField ops) restoreEvents c).world).1 <;> simp [diagnostic]

theorem cycle_end_applied (pre : FieldBackendBase → FieldBackendBase)
    (preEvents : Ptr → List Event) (ops : FieldOps) (hook : Hook) (c : Cfg)
    (p : Ptr) (hp : p ∈ c.world.children) :
    ∃ f, f.signalsBlocked = false ∧
      (cycle pre preEvents ops hook c).world.heap p = ops.endFieldUpdate f := by
  obtain ⟨f, hf⟩ := sweep_heap_mem (endField ops) endEvents c.world.children
    (afterTry hook (atHook pre preEvents c)) p hp
  exact ⟨{ f with signalsBlocked := false }, rfl, hf⟩

theorem cycle_children (pre : FieldBackendBase → FieldBackendBase)
    (preEvents : Ptr → List Event) (ops : FieldOps) (hook : Hook) (c : Cfg) :
    (cycle pre preEvents ops hook c).world.children
      = (hook (atHook pre preEvents c).world).2.children := by
  simp only [cycle, sweep_children, afterTry]

theorem atHook_children (pre : FieldBackendBase → FieldBackendBase)
    (preEvents : Ptr → List Event) (c : Cfg) :
    (atHook pre preEvents c).world.children = c.world.children := by
  simp only [atHook, sweep_children]

/-! ## Lemmas on the message operations -/

theorem add_body (fieldId : Int) (severity : MessageSeverity) (message : String)
    (x : Ptr) (c : Cfg) :
    (do
      let o ← readField x
      if o.fieldId == fieldId then
        onStatusMessages x (addMessage severity message)
      else
        pure () : Prog Unit) c
      = (Res.ok (), visit (addToMatching fieldId severity message) noEvents x c) := by
  simp only [bind_apply, readField]
  by_cases h : (c.world.heap x).fieldId = fieldId
  · simp [h, onStatusMessages, modifyField, visit, addToMatching, noEvents]
  · simp only [beq_iff_eq, h, if_false, visit, addToMatching, noEvents, List.append_nil,
      Function.update_eq_self]
    rfl

theorem addFieldMessageByFieldId_eq (fieldId : Int) (severity : MessageSeverity)
    (message : String) (c : Cfg) :
    addFieldMessageByFieldId fieldId severity message c
      = (Res.ok (), sweep (addToMatching fieldId severity message) noEvents
          c.world.children c) := by
  unfold addFieldMessageByFieldId
  simp only [bind_apply, findChildren]
  exact forEach_sweep _ noEvents _ (add_body fieldId severity message) _ c

theorem delete_body (minSeverityToDelete : MessageSeverity) (x : Ptr) (c : Cfg) :
    onStatusMessages x (deleteMessagesBySeverity minSeverityToDelete) c
      = (Res.ok (), visit (deleteInField minSeverityToDelete) noEvents x c) := by
  simp [onStatusMessages, modifyField, visit, deleteInField, noEvents]

theorem deleteFieldsMessagesBySeverity_eq (minSeverityToDelete : MessageSeverity) (c : Cfg) :
    deleteFieldsMessagesBySeverity minSeverityToDelete c
      = (Res.ok (), sweep (deleteInField minSeverityToDelete) noEvents
          c.world.children c) := by
  unfold deleteFieldsMessagesBySeverity
  simp only [bind_apply, findChildren]
  exact forEach_sweep _ noEvents _ (delete_body minSeverityToDelete) _ c

theorem deleteInField_idem (minSeverityToDelete : MessageSeverity) (o : FieldBackendBase) :
    deleteInField minSeverityToDelete (deleteInField minSeverityToDelete o)
      = deleteInField minSeverityToDelete o := by
  simp [deleteInField, deleteMessagesBySeverity, List.filter_filter]

theorem deleteMessagesBySeverity_eq (minSeverityToDelete : MessageSeverity)
    (l : List FieldMessage) :
    deleteMessagesBySeverity minSeverityToDelete l
      = l.filter (fun m => decide (m.severity < minSeverityToDelete)) := by
  unfold deleteMessagesBySeverity
  congr 1
  funext m
  by_cases h : minSeverityToDelete ≤ m.severity
  · simp [h]
  · simp [h, Nat.lt_of_not_le h]

theorem cycle_isUpdatingView (pre : FieldBackendBase → FieldBackendBase)
    (preEvents : Ptr → List Event) (ops : FieldOps) (hook : Hook) (c : Cfg) :
    (cycle pre preEvents ops hook c).world.m_isUpdatingView = false := rfl

/-! ## The claims -/

/-- C1, as stated, fails: in view-model `VM`, idle, with fields whose
`endFieldUpdate` blocks their notifications again, `updateView()` and
`restoreOriginalFieldValues()` return with the field at pointer 1 blocked, although it
was not blocked before: the end phase unblocks a field before it calls its
`endFieldUpdate`. -/
theorem cycle_leaves_reblocking_field_blocked :
    isUpdatingView VM.world = false ∧ 1 ∈ VM.world.children ∧
    (VM.world.heap 1).signalsBlocked = false ∧
    (updateView reblockingOps do_updateView_base VM).1 = Res.ok () ∧
    ((updateView reblockingOps do_updateView_base VM).2.world.heap 1).signalsBlocked = true ∧
    (restoreOriginalFieldValues reblockingOps raisingHook VM).1 = Res.ok () ∧
    ((restoreOriginalFieldValues reblockingOps raisingHook VM).2.world.heap 1).signalsBlocked
      = true := by
  rw [updateView_idle _ _ _ rfl, restoreOriginalFieldValues_idle _ _ _ rfl]
  refine ⟨rfl, by decide, by decide, rfl, ?_, rfl, ?_⟩
  · decide
  · decide

/-- C1, amended: from an idle view-model with any list of child fields, and whatever
the `do_updateView` hook does (returning or raising), `updateView()` and
`restoreOriginalFieldValues()` return normally and `isUpdatingView()` is false on
return; and every enumerated field has its notifications unblocked on return when the
`endFieldUpdate` of the fields, which the end phase calls after the unblocking, leaves
the signal blocking as it finds it. -/
theorem cycle_returns_with_guard_clear_and_fields_unblocked (ops : FieldOps) (hook : Hook)
    (c : Cfg) (hidle : isUpdatingView c.world = false) :
    ((updateView ops hook c).1 = Res.ok () ∧
      isUpdatingView (updateView ops hook c).2.world = false ∧
      ((∀ f, (ops.endFieldUpdate f).signalsBlocked = f.signalsBlocked) →
        ∀ p ∈ c.world.children,
          ((updateView ops hook c).2.world.heap p).signalsBlocked = false)) ∧
    ((restoreOriginalFieldValues ops hook c).1 = Res.ok () ∧
      isUpdatingView (restoreOriginalFieldValues ops hook c).2.world = false ∧
      ((∀ f, (ops.endFieldUpdate f).signalsBlocked = f.signalsBlocked) →
        ∀ p ∈ c.world.children,
          ((restoreOriginalFieldValues ops hook c).2.world.heap p).signalsBlocked
            = false)) := by
  rw [updateView_idle ops hook c hidle, restoreOriginalFieldValues_idle ops hook c hidle]
  exact ⟨⟨rfl, rfl, fun hEnd p hp => cycle_unblocked _ _ ops hook c hEnd p hp⟩,
    ⟨rfl, rfl, fun hEnd p hp => cycle_unblocked _ _ ops hook c hEnd p hp⟩⟩

/-- Witness of C1, amended: view-model `VM` with a hook that raises unconditionally. -/
theorem cycle_returns_with_guard_clear_and_fields_unblocked_witness :
    isUpdatingView VM.world = false ∧
    (∀ f, (plainOps.endFieldUpdate f).signalsBlocked = f.signalsBlocked) ∧
    (raisingHook VM.world).1 = Res.thrown ∧
    (((updateView plainOps raisingHook VM).1 = Res.ok () ∧
      isUpdatingView (updateView plainOps raisingHook VM).2.world = false ∧
      ∀ p ∈ VM.world.children,
        ((updateView plainOps raisingHook VM).2.world.heap p).signalsBlocked = false) ∧
    ((restoreOriginalFieldValues plainOps raisingHook VM).1 = Res.ok () ∧
      isUpdatingView (restoreOriginalFieldValues plainOps raisingHook VM).2.world = false ∧
      ∀ p ∈ VM.world.children,
        ((restoreOriginalFieldValues plainOps raisingHook VM).2.world.heap p).signalsBlocked
          = false)) :=
  have h := cycle_returns_with_guard_clear_and_fields_unblocked plainOps raisingHook VM rfl
  ⟨rfl, fun _ => rfl, rfl,
    ⟨h.1.1, h.1.2.1, h.1.2.2 (fun _ => rfl)⟩, ⟨h.2.1, h.2.2.1, h.2.2.2 (fun _ => rfl)⟩⟩

/-- C2: while `isUpdatingView` is true, `updateView()` and
`restoreOriginalFieldValues()` return at once: the objects (fields, guard, modified
flag) and the log of calls are exactly as before, so no blocking is toggled, no field
method is called and the hook is not invoked. -/
theorem cycle_entry_is_noop_while_updating (ops : FieldOps) (hook : Hook) (c : Cfg)
    (hbusy : isUpdatingView c.world = true) :
    updateView ops hook c = (Res.ok (), c) ∧
    restoreOriginalFieldValues ops hook c = (Res.ok (), c) := by
  have hb : c.world.m_isUpdatingView = true := hbusy
  constructor
  · unfold updateView
    simp only [bind_apply, read_isUpdatingView, hb, if_true]
    rfl
  · unfold restoreOriginalFieldValues
    simp only [bind_apply, read_isUpdatingView, hb, if_true]
    rfl

/-- Witness of C2: view-model `VM` inside a cycle, with a hook that would raise. -/
theorem cycle_entry_is_noop_while_updating_witness :
    isUpdatingView busyVM.world = true ∧
    updateView plainOps raisingHook busyVM = (Res.ok (), busyVM) ∧
    restoreOriginalFieldValues plainOps raisingHook busyVM = (Res.ok (), busyVM) :=
  ⟨rfl, cycle_entry_is_noop_while_updating plainOps raisingHook busyVM rfl⟩

/-- C3: a call `setModified(v)` returns, leaves `modified()` equal to `v`, and emits
`modifiedChanged` exactly when `v` differs from the flag before the call (so calling it
again with the same value emits nothing); over a sequence of calls the emissions are
as many as the value transitions of the sequence, and the flag ends at the last value. -/
theorem setModified_emits_once_per_transition (c : Cfg) (v : Bool) (vs : List Bool) :
    ((setModified v c).1 = Res.ok () ∧
      modified (setModified v c).2.world = v ∧
      (setModified v c).2.log
        = c.log ++ (if modified c.world = v then [] else [Event.modifiedChanged]) ∧
      (setModified v (setModified v c).2).2.log = (setModified v c).2.log) ∧
    ((setModifiedCalls vs c).1 = Res.ok () ∧
      modified (setModifiedCalls vs c).2.world = vs.getLastD (modified c.world) ∧
      (setModifiedCalls vs c).2.log
        = c.log ++ List.replicate (transitions (modified c.world) vs) Event.modifiedChanged) := by
  refine ⟨⟨?_, ?_, ?_, ?_⟩, setModifiedCalls_eq vs c⟩
  · rw [setModified_eq]
  · rw [setModified_eq]
    by_cases h : c.world.m_modified = v <;> simp [h, modified]
  · rw [setModified_eq]
    by_cases h : c.world.m_modified = v <;> simp [h, modified]
  · rw [setModified_eq, setModified_eq]
    by_cases h : c.world.m_modified = v <;> simp [h]

/-- C8: `areFieldsChangedFromOriginalValues()` returns true exactly when some owned
field reports `isChangedFromOriginalValue()` true, hence false when there is no field,
and it leaves the view-model, the fields and the log as they were. -/
theorem areFieldsChanged_iff_some_field_changed (ops : FieldOps) (c : Cfg) :
    (∃ b, areFieldsChangedFromOriginalValues ops c = (Res.ok b, c) ∧
      (b = true ↔ ∃ p ∈ c.world.children,
        ops.isChangedFromOriginalValue (c.world.heap p) = true)) ∧
    (c.world.children = [] →
      areFieldsChangedFromOriginalValues ops c = (Res.ok false, c)) := by
  constructor
  · exact ⟨_, areFieldsChanged_eq ops c, by simp [List.any_eq_true]⟩
  · intro h
    rw [areFieldsChanged_eq, h]
    rfl

/-- C10, as stated, fails: field `F2` of `VM` is blocked before the call and its
`endFieldUpdate` blocks the notifications again; `updateView()` and
`restoreOriginalFieldValues()` from idle return with that field still blocked. -/
theorem cycle_leaves_blocked_field_blocked :
    isUpdatingView VM.world = false ∧ 2 ∈ VM.world.children ∧
    (VM.world.heap 2).signalsBlocked = true ∧
    ((updateView reblockingOps do_updateView_base VM).2.world.heap 2).signalsBlocked = true ∧
    ((restoreOriginalFieldValues reblockingOps do_updateView_base VM).2.world.heap
      2).signalsBlocked = true := by
  rw [updateView_idle _ _ _ rfl, restoreOriginalFieldValues_idle _ _ _ rfl]
  refine ⟨rfl, by decide, by decide, ?_, ?_⟩
  · decide
  · decide

/-- C10, amended: from an idle view-model, for a field whose notifications were
already blocked before the call, the end phase of `updateView()` and of
`restoreOriginalFieldValues()` sets the blocking to false whatever it was, and then
calls `endFieldUpdate` on the unblocked field; the field is unblocked on return, its
earlier blocking state not being put back, when `endFieldUpdate` leaves the signal
blocking as it finds it. -/
theorem cycle_unblocks_field_blocked_before (ops : FieldOps) (hook : Hook) (c : Cfg)
    (hidle : isUpdatingView c.world = false)
    (p : Ptr) (hp : p ∈ c.world.children)
    (hblocked : (c.world.heap p).signalsBlocked = true) :
    (∃ f, f.signalsBlocked = false ∧
      (updateView ops hook c).2.world.heap p = ops.endFieldUpdate f) ∧
    (∃ f, f.signalsBlocked = false ∧
      (restoreOriginalFieldValues ops hook c).2.world.heap p = ops.endFieldUpdate f) ∧
    ((∀ f, (ops.endFieldUpdate f).signalsBlocked = f.signalsBlocked) →
      ((updateView ops hook c).2.world.heap p).signalsBlocked = false ∧
      ((restoreOriginalFieldValues ops hook c).2.world.heap p).signalsBlocked = false ∧
      ((updateView ops hook c).2.world.heap p).signalsBlocked
        ≠ (c.world.heap p).signalsBlocked ∧
      ((restoreOriginalFieldValues ops hook c).2.world.heap p).signalsBlocked
        ≠ (c.world.heap p).signalsBlocked) := by
  rw [updateView_idle ops hook c hidle, restoreOriginalFieldValues_idle ops hook c hidle]
  refine ⟨cycle_end_applied _ _ ops hook c p hp, cycle_end_applied _ _ ops hook c p hp, ?_⟩
  intro hEnd
  have h1 := cycle_unblocked (beginField ops) beginEvents ops hook c hEnd p hp
  have h2 := cycle_unblocked (restoreField ops) restoreEvents ops hook c hEnd p hp
  refine ⟨h1, h2, ?_, ?_⟩
  · simp only [h1, hblocked]
    decide
  · simp only [h2, hblocked]
    decide

/-- Witness of C10, amended: field `F2` of `VM`, blocked before the call. -/
theorem cycle_unblocks_field_blocked_before_witness :
    isUpdatingView VM.world = false ∧
    (∀ f, (plainOps.endFieldUpdate f).signalsBlocked = f.signalsBlocked) ∧
    2 ∈ VM.world.children ∧
    (VM.world.heap 2).signalsBlocked = true ∧
    (((updateView plainOps do_updateView_base VM).2.world.heap 2).signalsBlocked = false ∧
    ((restoreOriginalFieldValues plainOps do_updateView_base VM).2.world.heap 2).signalsBlocked
      = false ∧
    ((updateView plainOps do_updateView_base VM).2.world.heap 2).signalsBlocked
      ≠ (VM.world.heap 2).signalsBlocked ∧
    ((restoreOriginalFieldValues plainOps do_updateView_base VM).2.world.heap 2).signalsBlocked
      ≠ (VM.world.heap 2).signalsBlocked) :=
  ⟨rfl, fun _ => rfl, by decide, rfl,
    (cycle_unblocks_field_blocked_before plainOps do_updateView_base VM rfl 2
      (by decide) rfl).2.2 (fun _ => rfl)⟩

/-- C9, as stated, fails: in the cycles of `VM` the field at pointer 1 is unblocked
before its `endFieldUpdate` is called, and an `endFieldUpdate` that records the
blocking it sees records that the notifications are not blocked. -/
theorem end_phase_endFieldUpdate_then_unblock_fails :
    isUpdatingView VM.world = false ∧ 1 ∈ VM.world.children ∧
    (updateView probeOps do_updateView_base VM).2.log
      = [Event.blockSignals 1 true, Event.beginFieldUpdate 1,
         Event.blockSignals 2 true, Event.beginFieldUpdate 2,
         Event.do_updateView,
         Event.blockSignals 1 false, Event.endFieldUpdate 1,
         Event.blockSignals 2 false, Event.endFieldUpdate 2] ∧
    endUpdateBeforeUnblock (updateView probeOps do_updateView_base VM).2.log 1 = false ∧
    ((updateView probeOps do_updateView_base VM).2.world.heap 1).currentValue = 0 ∧
    endUpdateBeforeUnblock (restoreOriginalFieldValues probeOps do_updateView_base VM).2.log 1
      = false ∧
    ((restoreOriginalFieldValues probeOps do_updateView_base VM).2.world.heap 1).currentValue
      = 0 := by
  rw [updateView_idle _ _ _ rfl, restoreOriginalFieldValues_idle _ _ _ rfl]
  refine ⟨rfl, by decide, ?_, ?_, ?_, ?_, ?_⟩
  · decide
  · decide
  · decide
  · decide
  · decide

/-- C9, amended: in every `updateView()` or `restoreOriginalFieldValues()` cycle
started from idle, the begin phase, for each field in turn, blocks its notifications
and then calls `beginFieldUpdate` (and then `restoreOriginalValue` in the restore
cycle); after the hook, the end phase visits the same fields in the same order and, for
each field, unblocks its notifications and then calls `endFieldUpdate`, which so runs
on a field that is no longer blocked. -/
theorem cycle_calls_in_order (ops : FieldOps) (hook : Hook) (c : Cfg)
    (hidle : isUpdatingView c.world = false) :
    (∃ d, (d = [] ∨ d = [Event.qDebug]) ∧
      (updateView ops hook c).2.log
        = c.log ++ (c.world.children.flatMap
              (fun x => [Event.blockSignals x true, Event.beginFieldUpdate x])
            ++ Event.do_updateView :: d
            ++ c.world.children.flatMap
              (fun x => [Event.blockSignals x false, Event.endFieldUpdate x]))) ∧
    (∃ d, (d = [] ∨ d = [Event.qDebug]) ∧
      (restoreOriginalFieldValues ops hook c).2.log
        = c.log ++ (c.world.children.flatMap
              (fun x => [Event.blockSignals x true, Event.beginFieldUpdate x,
                Event.restoreOriginalValue x])
            ++ Event.do_updateView :: d
            ++ c.world.children.flatMap
              (fun x => [Event.blockSignals x false, Event.endFieldUpdate x]))) ∧
    (∀ p ∈ c.world.children,
      (∃ f, f.signalsBlocked = false ∧
        (updateView ops hook c).2.world.heap p = ops.endFieldUpdate f) ∧
      (∃ f, f.signalsBlocked = false ∧
        (restoreOriginalFieldValues ops hook c).2.world.heap p = ops.endFieldUpdate f)) := by
  refine ⟨updateView_log ops hook c hidle, restoreOriginalFieldValues_log ops hook c hidle, ?_⟩
  intro p hp
  rw [updateView_idle ops hook c hidle, restoreOriginalFieldValues_idle ops hook c hidle]
  exact ⟨cycle_end_applied _ _ ops hook c p hp, cycle_end_applied _ _ ops hook c p hp⟩

/-- Witness of C9, amended: view-model `VM` with a hook that raises. -/
theorem cycle_calls_in_order_witness :
    isUpdatingView VM.world = false ∧
    ((∃ d, (d = [] ∨ d = [Event.qDebug]) ∧
      (updateView plainOps raisingHook VM).2.log
        = VM.log ++ (VM.world.children.flatMap
              (fun x => [Event.blockSignals x true, Event.beginFieldUpdate x])
            ++ Event.do_updateView :: d
            ++ VM.world.children.flatMap
              (fun x => [Event.blockSignals x false, Event.endFieldUpdate x]))) ∧
    (∃ d, (d = [] ∨ d = [Event.qDebug]) ∧
      (restoreOriginalFieldValues plainOps raisingHook VM).2.log
        = VM.log ++ (VM.world.children.flatMap
              (fun x => [Event.blockSignals x true, Event.beginFieldUpdate x,
                Event.restoreOriginalValue x])
            ++ Event.do_updateView :: d
            ++ VM.world.children.flatMap
              (fun x => [Event.blockSignals x false, Event.endFieldUpdate x]))) ∧
    (∀ p ∈ VM.world.children,
      (∃ f, f.signalsBlocked = false ∧
        (updateView plainOps raisingHook VM).2.world.heap p = plainOps.endFieldUpdate f) ∧
      (∃ f, f.signalsBlocked = false ∧
        (restoreOriginalFieldValues plainOps raisingHook VM).2.world.heap p
          = plainOps.endFieldUpdate f))) :=
  ⟨rfl, cycle_calls_in_order plainOps raisingHook VM rfl⟩

/-- C4, as stated, fails: the fields of `VM` honour `restoreOriginalValue`, yet with a
hook that writes a field value, after `restoreOriginalFieldValues()` the field at
pointer 1 holds a current value other than its original one and
`areFieldsChangedFromOriginalValues()` returns true. -/
theorem restore_then_hook_overwrites_value :
    isUpdatingView VM.world = false ∧
    (∀ f, (plainOps.restoreOriginalValue f).currentValue = f.originalValue ∧
      (plainOps.restoreOriginalValue f).originalValue = f.originalValue) ∧
    ((restoreOriginalFieldValues plainOps overwritingHook VM).2.world.heap 1).currentValue
      ≠ ((restoreOriginalFieldValues plainOps overwritingHook VM).2.world.heap 1).originalValue ∧
    (areFieldsChangedFromOriginalValues plainOps
      (restoreOriginalFieldValues plainOps overwritingHook VM).2).1 = Res.ok true := by
  rw [restoreOriginalFieldValues_idle _ _ _ rfl, areFieldsChanged_eq]
  refine ⟨rfl, fun f => ⟨rfl, rfl⟩, ?_, ?_⟩
  · decide
  · decide

/-- C4, amended: from an idle view-model whose fields honour `restoreOriginalValue`
and report no change when the current value equals the original one, and whose
`endFieldUpdate` and `do_updateView` hook leave the current and original values of the
fields (and the hook the list of children) as they are, after
`restoreOriginalFieldValues()` returns every field has its current value equal to its
original snapshot and `areFieldsChangedFromOriginalValues()` returns false. -/
theorem restoreOriginalFieldValues_restores_when_values_kept (ops : FieldOps) (hook : Hook)
    (c : Cfg) (hidle : isUpdatingView c.world = false)
    (hRestore : ∀ f, (ops.restoreOriginalValue f).currentValue = f.originalValue ∧
      (ops.restoreOriginalValue f).originalValue = f.originalValue)
    (hChanged : ∀ f, f.currentValue = f.originalValue →
      ops.isChangedFromOriginalValue f = false)
    (hEnd : ∀ f, (ops.endFieldUpdate f).currentValue = f.currentValue ∧
      (ops.endFieldUpdate f).originalValue = f.originalValue)
    (hHook : ∀ w, (hook w).2.children = w.children ∧
      ∀ p, ((hook w).2.heap p).currentValue = (w.heap p).currentValue ∧
        ((hook w).2.heap p).originalValue = (w.heap p).originalValue) :
    (restoreOriginalFieldValues ops hook c).1 = Res.ok () ∧
    (∀ p ∈ c.world.children,
      ((restoreOriginalFieldValues ops hook c).2.world.heap p).currentValue
        = ((restoreOriginalFieldValues ops hook c).2.world.heap p).originalValue) ∧
    areFieldsChangedFromOriginalValues ops (restoreOriginalFieldValues ops hook c).2
      = (Res.ok false, (restoreOriginalFieldValues ops hook c).2) := by
  rw [restoreOriginalFieldValues_idle ops hook c hidle]
  have hvals : ∀ p ∈ c.world.children,
      ((cycle (restoreField ops) restoreEvents ops hook c).world.heap p).currentValue
        = ((cycle (restoreField ops) restoreEvents ops hook c).world.heap p).originalValue := by
    intro p hp
    have hcur := sweep_heap_keeps (fun f => f.currentValue) (endField ops)
      (fun f => (hEnd _).1) endEvents c.world.children
      (afterTry hook (atHook (restoreField ops) restoreEvents c)) p
    have horig := sweep_heap_keeps (fun f => f.originalValue) (endField ops)
      (fun f => (hEnd _).2) endEvents c.world.children
      (afterTry hook (atHook (restoreField ops) restoreEvents c)) p
    obtain ⟨f, hf⟩ := sweep_heap_mem (restoreField ops) restoreEvents c.world.children
      { c with world := { c.world with m_isUpdatingView := true } } p hp
    have hat : (atHook (restoreField ops) restoreEvents c).world.heap p = restoreField ops f := hf
    have h1 := (hHook (atHook (restoreField ops) restoreEvents c).world).2 p
    show ((sweep (endField ops) endEvents c.world.children
        (afterTry hook (atHook (restoreField ops) restoreEvents c))).world.heap p).currentValue
      = ((sweep (endField ops) endEvents c.world.children
        (afterTry hook (atHook (restoreField ops) restoreEvents c))).world.heap p).originalValue
    rw [hcur, horig]
    show ((hook (atHook (restoreField ops) restoreEvents c).world).2.heap p).currentValue
      = ((hook (atHook (restoreField ops) restoreEvents c).world).2.heap p).originalValue
    rw [h1.1, h1.2, hat, restoreField, (hRestore _).1, (hRestore _).2]
  refine ⟨rfl, hvals, ?_⟩
  rw [areFieldsChanged_eq]
  have hch : (cycle (restoreField ops) restoreEvents ops hook c).world.children
      = c.world.children := by
    rw [cycle_children, (hHook _).1, atHook_children]
  have hany : (List.any (cycle (restoreField ops) restoreEvents ops hook c).world.children
      (fun p => ops.isChangedFromOriginalValue
        ((cycle (restoreField ops) restoreEvents ops hook c).world.heap p))) = false := by
    rw [hch, List.any_eq_false]
    intro p hp
    rw [hChanged _ (hvals p hp)]
    decide
  rw [hany]

/-- Witness of C4, amended: view-model `VM` with the empty hook of the base class. -/
theorem restoreOriginalFieldValues_restores_when_values_kept_witness :
    isUpdatingView VM.world = false ∧
    (∀ f, (plainOps.restoreOriginalValue f).currentValue = f.originalValue ∧
      (plainOps.restoreOriginalValue f).originalValue = f.originalValue) ∧
    (∀ f, f.currentValue = f.originalValue → plainOps.isChangedFromOriginalValue f = false) ∧
    ((VM.world.heap 1).currentValue ≠ (VM.world.heap 1).originalValue) ∧
    ((restoreOriginalFieldValues plainOps do_updateView_base VM).1 = Res.ok () ∧
    (∀ p ∈ VM.world.children,
      ((restoreOriginalFieldValues plainOps do_updateView_base VM).2.world.heap p).currentValue
        = ((restoreOriginalFieldValues plainOps do_updateView_base VM).2.world.heap
            p).originalValue) ∧
    areFieldsChangedFromOriginalValues plainOps
        (restoreOriginalFieldValues plainOps do_updateView_base VM).2
      = (Res.ok false, (restoreOriginalFieldValues plainOps do_updateView_base VM).2)) :=
  ⟨rfl, fun _ => ⟨rfl, rfl⟩, fun f h => by simp [plainOps, h], by decide,
    restoreOriginalFieldValues_restores_when_values_kept plainOps do_updateView_base VM rfl
      (fun _ => ⟨rfl, rfl⟩) (fun f h => by simp [plainOps, h]) (fun _ => ⟨rfl, rfl⟩)
      (fun _ => ⟨rfl, fun _ => ⟨rfl, rfl⟩⟩)⟩

/-- C5: `addFieldMessageByFieldId(fieldId, severity, text)` returns and appends exactly
the one message (severity, text) to the message list of every owned field whose id is
`fieldId`, all of them when several share the id, and leaves every other field as it
was; when no owned field has that id every field, and so the total number of messages,
is unchanged. The children are listed once each. -/
theorem addFieldMessageByFieldId_adds_to_matching_fields_only (fieldId : Int)
    (severity : MessageSeverity) (text : String) (c : Cfg) (hnd : c.world.children.Nodup) :
    (addFieldMessageByFieldId fieldId severity text c).1 = Res.ok () ∧
    (∀ p, p ∈ c.world.children → (c.world.heap p).fieldId = fieldId →
      (addFieldMessageByFieldId fieldId severity text c).2.world.heap p
        = { c.world.heap p with
            statusMessages := (c.world.heap p).statusMessages
              ++ [{ severity := severity, message := text }] }) ∧
    (∀ p, ¬ (p ∈ c.world.children ∧ (c.world.heap p).fieldId = fieldId) →
      (addFieldMessageByFieldId fieldId severity text c).2.world.heap p = c.world.heap p) ∧
    ((∀ p ∈ c.world.children, (c.world.heap p).fieldId ≠ fieldId) →
      (∀ p, (addFieldMessageByFieldId fieldId severity text c).2.world.heap p
        = c.world.heap p) ∧
      totalMessages (addFieldMessageByFieldId fieldId severity text c).2.world
        = totalMessages c.world) := by
  rw [addFieldMessageByFieldId_eq]
  have hother : ∀ p, ¬ (p ∈ c.world.children ∧ (c.world.heap p).fieldId = fieldId) →
      (sweep (addToMatching fieldId severity text) noEvents c.world.children c).world.heap p
        = c.world.heap p := by
    intro p hp
    by_cases hmem : p ∈ c.world.children
    · rw [sweep_heap_nodup _ _ _ _ p hmem hnd]
      have hid : ¬ (c.world.heap p).fieldId = fieldId := fun h => hp ⟨hmem, h⟩
      simp [addToMatching, hid]
    · exact sweep_heap_not_mem _ _ _ _ p hmem
  refine ⟨rfl, ?_, hother, ?_⟩
  · intro p hmem hid
    show (sweep (addToMatching fieldId severity text) noEvents c.world.children c).world.heap p
      = _
    rw [sweep_heap_nodup _ _ _ _ p hmem hnd]
    simp [addToMatching, hid, addMessage]
  · intro hnone
    have hall : ∀ p,
        (sweep (addToMatching fieldId severity text) noEvents c.world.children c).world.heap p
          = c.world.heap p := fun p => hother p (fun h => hnone p h.1 h.2)
    refine ⟨hall, ?_⟩
    show totalMessages (sweep _ noEvents c.world.children c).world = _
    unfold totalMessages
    rw [sweep_children]
    congr 1
    exact List.map_congr_left (fun p _ => by rw [hall p])

/-- Witness of C5: a message for field id 2 in view-model `VM`. -/
theorem addFieldMessageByFieldId_adds_to_matching_fields_only_witness :
    VM.world.children.Nodup ∧
    ((addFieldMessageByFieldId 2 3 "late" VM).1 = Res.ok () ∧
    (∀ p, p ∈ VM.world.children → (VM.world.heap p).fieldId = 2 →
      (addFieldMessageByFieldId 2 3 "late" VM).2.world.heap p
        = { VM.world.heap p with
            statusMessages := (VM.world.heap p).statusMessages
              ++ [{ severity := 3, message := "late" }] }) ∧
    (∀ p, ¬ (p ∈ VM.world.children ∧ (VM.world.heap p).fieldId = 2) →
      (addFieldMessageByFieldId 2 3 "late" VM).2.world.heap p = VM.world.heap p) ∧
    ((∀ p ∈ VM.world.children, (VM.world.heap p).fieldId ≠ 2) →
      (∀ p, (addFieldMessageByFieldId 2 3 "late" VM).2.world.heap p = VM.world.heap p) ∧
      totalMessages (addFieldMessageByFieldId 2 3 "late" VM).2.world
        = totalMessages VM.world)) :=
  ⟨by decide, addFieldMessageByFieldId_adds_to_matching_fields_only 2 3 "late" VM (by decide)⟩

/-- C6: `deleteFieldsMessagesBySeverity(min)` returns, and afterwards the message list
of each owned field is its previous list without the messages of severity at or above
`min`: no message at or above `min` remains, the messages below `min` are the same as
before, in the same order, and fields that are not owned are as they were. -/
theorem deleteFieldsMessagesBySeverity_removes_at_or_above_only
    (minSeverityToDelete : MessageSeverity) (c : Cfg) :
    (deleteFieldsMessagesBySeverity minSeverityToDelete c).1 = Res.ok () ∧
    (∀ p ∈ c.world.children,
      ((deleteFieldsMessagesBySeverity minSeverityToDelete c).2.world.heap p).statusMessages
        = (c.world.heap p).statusMessages.filter
            (fun m => decide (m.severity < minSeverityToDelete)) ∧
      (∀ m ∈ ((deleteFieldsMessagesBySeverity minSeverityToDelete c).2.world.heap
          p).statusMessages, ¬ minSeverityToDelete ≤ m.severity) ∧
      ((deleteFieldsMessagesBySeverity minSeverityToDelete c).2.world.heap
          p).statusMessages.filter (fun m => decide (m.severity < minSeverityToDelete))
        = (c.world.heap p).statusMessages.filter
            (fun m => decide (m.severity < minSeverityToDelete))) ∧
    (∀ p, p ∉ c.world.children →
      (deleteFieldsMessagesBySeverity minSeverityToDelete c).2.world.heap p
        = c.world.heap p) := by
  rw [deleteFieldsMessagesBySeverity_eq]
  refine ⟨rfl, ?_, fun p hp => sweep_heap_not_mem _ _ _ _ p hp⟩
  intro p hp
  have hmsgs : ((sweep (deleteInField minSeverityToDelete) noEvents c.world.children
      c).world.heap p).statusMessages
        = (c.world.heap p).statusMessages.filter
            (fun m => decide (m.severity < minSeverityToDelete)) := by
    rw [sweep_heap]
    obtain ⟨n, hn⟩ : ∃ n, c.world.children.count p = n + 1 :=
      Nat.exists_eq_succ_of_ne_zero (Nat.pos_iff_ne_zero.mp (List.count_pos_iff.mpr hp))
    rw [hn, Function.iterate_succ_apply,
      Function.iterate_fixed (deleteInField_idem minSeverityToDelete (c.world.heap p)) n]
    exact deleteMessagesBySeverity_eq _ _
  refine ⟨hmsgs, ?_, ?_⟩
  · intro m hm
    have hm2 : m ∈ (c.world.heap p).statusMessages.filter
        (fun m => decide (m.severity < minSeverityToDelete)) := hmsgs ▸ hm
    have := (List.mem_filter.mp hm2).2
    simp only [decide_eq_true_eq] at this
    exact Nat.not_le.mpr this
  · show List.filter _ ((sweep (deleteInField minSeverityToDelete) noEvents c.world.children
      c).world.heap p).statusMessages = _
    rw [hmsgs, List.filter_filter]
    simp

end ViewModelsFramework
